import Mathlib

/-!
Shallow embedding of `src/triqs/stat/mean_error.hpp` (namespace `triqs::stat`).

The four functions `mean`, `mean_mpi`, `mean_and_err`, `mean_and_err_mpi`
are modelled over exact rational arithmetic (`ℚ`), with a separate
rational-complex instantiation for the complex-valued claims.  MPI state is
modelled as the list of all processes' local sequences (`world`); an
`all_reduce` is the sum over that list, and the value returned is the one
every process observes after the collective.

The C++ `mean` begins with `auto mean_calc = data[0];`, an element access
that is out of bounds when `data` is empty (the `ENSURE(data.size() > 0)`
guard in the source is commented out).  Out-of-bounds access is modelled by
returning `none`.
-/

namespace TriqsStat

/-- Loop body of `mean`: `mean_calc += (x - mean_calc) / (n + 1)` where `n`
is the zero-based position delivered by `itertools::enumerate`. -/
def meanBody (M : ℚ) (nx : ℕ × ℚ) : ℚ :=
  M + (nx.2 - M) / ((nx.1 : ℚ) + 1)

/-- `triqs::stat::mean`: reads `data[0]` (out of bounds on empty input,
modelled as `none`), sets the accumulator to `0`, then folds `meanBody`
over the enumerated sequence in order. -/
def mean (data : List ℚ) : Option ℚ :=
  match data with
  | [] => none
  | _ :: _ => some ((data.enum).foldl meanBody 0)

/-- Closed form of the `mean` loop started at index `k` with accumulator `M`:
it computes `(k*M + sum xs) / (k + |xs|)` whenever `k + |xs| > 0`. -/
theorem meanFold (xs : List ℚ) : ∀ (k : ℕ) (M : ℚ), 0 < k + xs.length →
    (List.enumFrom k xs).foldl meanBody M = ((k : ℚ) * M + xs.sum) / ((k : ℚ) + xs.length) := by
  induction xs with
  | nil =>
    intro k M hk
    have hk0 : (k : ℚ) ≠ 0 := by
      have : 0 < k := by simpa using hk
      exact_mod_cast this.ne'
    simp [List.enumFrom, mul_comm, mul_div_assoc, div_self hk0]
  | cons x t ih =>
    intro k M _
    have hk1 : ((k : ℚ) + 1) ≠ 0 := by positivity
    have hden : ((k : ℚ) + 1 + (t.length : ℚ)) ≠ 0 := by positivity
    have hden2 : ((k : ℚ) + ((t.length : ℚ) + 1)) ≠ 0 := by positivity
    have hstep := ih (k + 1) (meanBody M (k, x)) (by omega)
    simp only [List.enumFrom, List.foldl_cons]
    rw [hstep]
    simp only [meanBody]
    push_cast [List.length_cons, List.sum_cons]
    rw [div_eq_div_iff (by positivity) (by positivity)]
    field_simp
    ring

/-- C3 core: for non-empty data the incremental recurrence yields the
arithmetic mean `sum / length`. -/
theorem mean_eq_sum_div (data : List ℚ) (h : data ≠ []) :
    mean data = some (data.sum / data.length) := by
  match data, h with
  | x :: t, _ =>
    have hpos : 0 < 0 + (x :: t).length := by simp
    have hfold := meanFold (x :: t) 0 0 hpos
    have henum : (x :: t).enum = List.enumFrom 0 (x :: t) := rfl
    simp only [mean, henum, hfold]
    norm_num

/-- Local accumulation loop of `mean_and_err` / `mean_and_err_mpi`:
`err_calc += conj_r(x - M) * (x - M) / (N * (N - 1))`, started from `0`.
For real-valued data `conj_r(v) * v` is `v * v`.  `N` is the `long length`
of the source (the global sample count in the MPI variant); the divisor is
formed as `N * (N - 1)` in exact arithmetic. -/
def errSqLocal (M : ℚ) (N : ℕ) (d : List ℚ) : ℚ :=
  d.foldl (fun e x => e + (x - M) * (x - M) / ((N : ℚ) * ((N : ℚ) - 1))) 0

/-- `triqs::stat::mean_and_err`.  The first component is `mean_calc`; the
second is `err_calc` just before the final `err_calc = sqrt(err_calc)`,
i.e. the radicand `S / (N * (N - 1))`; the returned standard error of the
source is `Real.sqrt` of it (applied in the theorems). -/
def mean_and_err (data : List ℚ) : Option (ℚ × ℚ) :=
  (mean data).map (fun M => (M, errSqLocal M data.length data))

/-- One process's contribution to the `all_reduce_in_place(M, c)` of
`mean_mpi`: its local mean scaled by `double(data.size()) / N`, summed over
the whole group.  A process whose local sequence is empty evaluates
`data[0]` out of bounds inside `mean`, so the collective result is
undefined (`none`). -/
def reduce_local_means (N : ℕ) : List (List ℚ) → Option ℚ
  | [] => some 0
  | d :: rest => do
    let Md ← mean d
    let s ← reduce_local_means N rest
    pure (Md * ((d.length : ℚ) / (N : ℚ)) + s)

/-- `triqs::stat::mean_mpi` observed on any process of the group `world`
(one local sequence per process): `N = all_reduce(data.size())`, each
process rescales its local mean by `data.size() / N`, and the group sums
them in place. -/
def mean_mpi (world : List (List ℚ)) : Option ℚ :=
  reduce_local_means ((world.map List.length).sum) world

/-- `triqs::stat::mean_and_err_mpi` observed on any process of the group:
`length = all_reduce(data.size())`, `mean_calc = mean_mpi(c, data)`, each
process accumulates its local deviations from the global mean divided by
`length * (length - 1)`, and `all_reduce_in_place` sums the local
accumulators.  As in `mean_and_err`, the second component is the radicand
of the final `sqrt`. -/
def mean_and_err_mpi (world : List (List ℚ)) : Option (ℚ × ℚ) :=
  (mean_mpi world).map
    (fun M => (M, (world.map (errSqLocal M ((world.map List.length).sum))).sum))

/-- A left fold that only adds `g x` at each step is the running start plus
the sum of the mapped list. -/
theorem foldl_add_eq {α : Type} (g : α → ℚ) (d : List α) :
    ∀ s : ℚ, d.foldl (fun e x => e + g x) s = s + (d.map g).sum := by
  induction d with
  | nil => intro s; simp
  | cons x t ih =>
    intro s
    simp only [List.foldl_cons, List.map_cons, List.sum_cons, ih]
    ring

/-- Dividing every mapped term by the same constant divides the sum. -/
theorem map_div_sum {α : Type} (g : α → ℚ) (D : ℚ) (d : List α) :
    (d.map (fun x => g x / D)).sum = (d.map g).sum / D := by
  induction d with
  | nil => simp
  | cons x t ih => simp [ih, add_div]

/-- The error loop in closed form: the sum of the per-element terms. -/
theorem errSqLocal_eq_map (M : ℚ) (N : ℕ) (d : List ℚ) :
    errSqLocal M N d =
      (d.map (fun x => (x - M) * (x - M) / ((N : ℚ) * ((N : ℚ) - 1)))).sum := by
  simpa [errSqLocal] using foldl_add_eq (fun x => (x - M) * (x - M) / ((N : ℚ) * ((N : ℚ) - 1))) d 0

/-- Rescaling a non-empty sequence's local mean by its length recovers its
sum. -/
theorem length_mul_mean (d : List ℚ) (hd : d ≠ []) :
    (d.length : ℚ) * (d.sum / d.length) = d.sum := by
  have hlen : (d.length : ℚ) ≠ 0 := by
    have h0 : d.length ≠ 0 := (List.length_pos.mpr hd).ne'
    exact_mod_cast h0
  field_simp

/-- When every local sequence is non-empty, the in-place reduction of the
rescaled local means produces the sum of the local sums divided by `N`. -/
theorem reduce_local_means_eq (N : ℕ) (world : List (List ℚ))
    (h : ∀ d ∈ world, d ≠ []) :
    reduce_local_means N world = some ((world.map List.sum).sum / (N : ℚ)) := by
  induction world with
  | nil => simp [reduce_local_means]
  | cons d rest ih =>
    have hd : d ≠ [] := h d (List.mem_cons_self d rest)
    have hlen : (d.length : ℚ) ≠ 0 := by
      have h0 : d.length ≠ 0 := (List.length_pos.mpr hd).ne'
      exact_mod_cast h0
    have hmean := mean_eq_sum_div d hd
    have hrest := ih (fun x hx => h x (List.mem_cons_of_mem d hx))
    have hcancel : (d.length : ℚ) / (d.length : ℚ) = 1 := div_self hlen
    have hscale : d.sum / (d.length : ℚ) * ((d.length : ℚ) / (N : ℚ)) = d.sum / (N : ℚ) := by
      calc d.sum / (d.length : ℚ) * ((d.length : ℚ) / (N : ℚ))
          = d.sum / (N : ℚ) * ((d.length : ℚ) / (d.length : ℚ)) := by ring
        _ = d.sum / (N : ℚ) := by rw [hcancel, mul_one]
    simp only [reduce_local_means, hmean, hrest, Option.bind_eq_bind, Option.some_bind,
      List.map_cons, List.sum_cons]
    rw [hscale, div_add_div_same]
    rfl

/-- With every local sequence non-empty, the distributed mean equals the
single-process mean of the concatenation of all local sequences. -/
theorem mean_mpi_eq_mean_flatten (world : List (List ℚ)) (hw : world ≠ [])
    (h : ∀ d ∈ world, d ≠ []) :
    mean_mpi world = mean world.flatten := by
  have hflat : world.flatten ≠ [] := by
    match world, hw with
    | d :: rest, _ =>
      have hd : d ≠ [] := h d (List.mem_cons_self d rest)
      simp only [List.flatten_cons]
      intro hcontra
      exact hd (List.append_eq_nil.mp hcontra).1
  rw [mean_eq_sum_div world.flatten hflat,
    mean_mpi, reduce_local_means_eq _ world h]
  congr 1
  rw [List.sum_flatten, List.length_flatten]

/-- Summing the per-part mapped sums over a partition is summing the map
over the concatenation. -/
theorem sum_map_flatten (g : ℚ → ℚ) (world : List (List ℚ)) :
    (world.map (fun d => (d.map g).sum)).sum = ((world.flatten).map g).sum := by
  induction world with
  | nil => simp
  | cons d rest ih => simp [ih]

/-- A non-empty group whose members are all non-empty concatenates to a
non-empty sequence. -/
theorem flatten_ne_nil_of_parts (world : List (List ℚ)) (hw : world ≠ [])
    (h : ∀ d ∈ world, d ≠ []) : world.flatten ≠ [] := by
  match world, hw with
  | d :: rest, _ =>
    have hd : d ≠ [] := h d (List.mem_cons_self d rest)
    simp only [List.flatten_cons]
    intro hcontra
    exact hd (List.append_eq_nil.mp hcontra).1

/-- C3: `mean` starts the accumulator at zero and applies
`M += (x - M) / (n + 1)` strictly in sequence order; in exact arithmetic
the final accumulator is the arithmetic mean `sum / length` of the
(non-empty) data. -/
theorem mean_recurrence_equals_arithmetic_mean (data : List ℚ) (h : data ≠ []) :
    mean data = some (data.sum / data.length) :=
  mean_eq_sum_div data h

/-- C3 witness at `[1, 2, 3]`: the recurrence yields the arithmetic mean 2. -/
theorem mean_recurrence_equals_arithmetic_mean_witness : mean [1, 2, 3] = some 2 := by
  have h := mean_recurrence_equals_arithmetic_mean [1, 2, 3] (by decide)
  rw [h]
  norm_num

/-- C10: on a single-element sequence the recurrence computes
`0 + (x - 0) / 1`, so `mean [x]` returns exactly `x`. -/
theorem mean_singleton_exact (x : ℚ) : mean [x] = some x := by
  have henum : ([x] : List ℚ).enum = [(0, x)] := rfl
  simp only [mean, henum, List.foldl_cons, List.foldl_nil, meanBody]
  norm_num

/-- C2: with every local sequence non-empty, `mean_mpi` equals the weighted
combination `sum_over_processes(N_local * M_local) / N`, which equals the
single-process mean over the concatenation of all local sequences. -/
theorem mean_mpi_weighted_combination (world : List (List ℚ)) (hw : world ≠ [])
    (h : ∀ d ∈ world, d ≠ []) :
    mean_mpi world =
      some ((world.map (fun d => (d.length : ℚ) * (d.sum / d.length))).sum
        / (((world.map List.length).sum : ℕ) : ℚ)) ∧
    mean_mpi world = mean world.flatten := by
  have hmap : world.map (fun d => (d.length : ℚ) * (d.sum / d.length))
      = world.map List.sum :=
    List.map_congr_left (fun d hd => length_mul_mean d (h d hd))
  constructor
  · rw [mean_mpi, reduce_local_means_eq _ world h, hmap]
  · exact mean_mpi_eq_mean_flatten world hw h

/-- C2 witness: group `[[1, 2], [3]]` gives both equalities at a concrete
partition. -/
theorem mean_mpi_weighted_combination_witness :
    mean_mpi [[1, 2], [3]] =
      some ((([[1, 2], [3]] : List (List ℚ)).map
          (fun d => (d.length : ℚ) * (d.sum / d.length))).sum
        / (((([[1, 2], [3]] : List (List ℚ)).map List.length).sum : ℕ) : ℚ)) ∧
    mean_mpi [[1, 2], [3]] = mean ([[1, 2], [3]] : List (List ℚ)).flatten :=
  mean_mpi_weighted_combination [[1, 2], [3]] (by decide) (by decide)

/-- C1 counterexample: with an empty partition on the second process,
`mean_and_err_mpi` is undefined (the empty process evaluates `data[0]` out
of bounds inside `mean`), so it does not equal the single-process
`mean_and_err` over the concatenation. -/
theorem mean_and_err_mpi_empty_partition_diverges :
    mean_and_err_mpi [[1, 2, 3], []] ≠
      mean_and_err ([[1, 2, 3], ([] : List ℚ)] : List (List ℚ)).flatten := by
  decide

/-- C1 (amended): for any group in which every process's local sequence is
non-empty, `mean_and_err_mpi` returns exactly the pair returned by the
single-process `mean_and_err` applied to the concatenation of all local
sequences (exact arithmetic). -/
theorem mean_and_err_mpi_refines_concat (world : List (List ℚ)) (hw : world ≠ [])
    (h : ∀ d ∈ world, d ≠ []) :
    mean_and_err_mpi world = mean_and_err world.flatten := by
  have hflat : world.flatten ≠ [] := flatten_ne_nil_of_parts world hw h
  have hm := mean_mpi_eq_mean_flatten world hw h
  have hm2 := mean_eq_sum_div world.flatten hflat
  have hN : (world.map List.length).sum = world.flatten.length :=
    (List.length_flatten world).symm
  rw [mean_and_err_mpi, mean_and_err, hm, hm2, Option.map_some', Option.map_some']
  refine congrArg _ (congrArg _ ?_)
  rw [hN]
  calc (world.map (errSqLocal (world.flatten.sum / world.flatten.length)
          world.flatten.length)).sum
      = (world.map (fun d => (d.map (fun x =>
          (x - world.flatten.sum / world.flatten.length)
            * (x - world.flatten.sum / world.flatten.length)
          / ((world.flatten.length : ℚ) * ((world.flatten.length : ℚ) - 1)))).sum)).sum := by
        exact congrArg List.sum (List.map_congr_left (fun d _ => errSqLocal_eq_map _ _ d))
    _ = errSqLocal (world.flatten.sum / world.flatten.length)
          world.flatten.length world.flatten := by
        rw [sum_map_flatten, ← errSqLocal_eq_map]

/-- C1 witness (the spec's concrete distributed case): process A holds
`[1, 2]`, process B holds `[3]`; the distributed result equals the
single-process result over `[1, 2, 3]`. -/
theorem mean_and_err_mpi_refines_concat_witness :
    mean_and_err_mpi [[1, 2], [3]] =
      mean_and_err ([[1, 2], [3]] : List (List ℚ)).flatten :=
  mean_and_err_mpi_refines_concat [[1, 2], [3]] (by decide) (by decide)

/-- C7: over a 1-process group the distributed functions coincide exactly
with the local ones on any non-empty sequence (the rescaling factor is
`size / size = 1` and the reductions are identities). -/
theorem mpi_single_process_exact (d : List ℚ) (h : d ≠ []) :
    mean_mpi [d] = mean d ∧ mean_and_err_mpi [d] = mean_and_err d := by
  obtain ⟨m, hm⟩ : ∃ m, mean d = some m := ⟨_, mean_eq_sum_div d h⟩
  have hlen : (d.length : ℚ) ≠ 0 := by
    have h0 : d.length ≠ 0 := (List.length_pos.mpr h).ne'
    exact_mod_cast h0
  have hself : (d.length : ℚ) / (d.length : ℚ) = 1 := div_self hlen
  have h1 : mean_mpi [d] = mean d := by
    simp [mean_mpi, reduce_local_means, hm, hself]
  refine ⟨h1, ?_⟩
  simp [mean_and_err_mpi, mean_and_err, h1, hm]

/-- C7 witness at `[1, 2, 3]` on a 1-process group. -/
theorem mpi_single_process_exact_witness :
    mean_mpi [[1, 2, 3]] = mean [1, 2, 3] ∧
      mean_and_err_mpi [[1, 2, 3]] = mean_and_err [1, 2, 3] :=
  mpi_single_process_exact [1, 2, 3] (by decide)

/-- C4: for length `N ≥ 2`, `mean_and_err` returns the arithmetic mean and
the radicand `S / (N * (N - 1))` with `S` the sum of squared deviations;
the standard error of the source is the square root of that radicand. -/
theorem mean_and_err_closed_form (data : List ℚ) (h : 2 ≤ data.length) :
    mean_and_err data =
      some (data.sum / data.length,
        ((data.map (fun x => (x - data.sum / data.length)
            * (x - data.sum / data.length))).sum)
          / ((data.length : ℚ) * ((data.length : ℚ) - 1))) ∧
    (mean_and_err data).map (fun p => Real.sqrt (p.2 : ℝ)) =
      some (Real.sqrt
        (((((data.map (fun x => (x - data.sum / data.length)
            * (x - data.sum / data.length))).sum)
          / ((data.length : ℚ) * ((data.length : ℚ) - 1))) : ℚ) : ℝ)) := by
  have hne : data ≠ [] := by
    intro hnil
    rw [hnil] at h
    simp at h
  have hmean := mean_eq_sum_div data hne
  have herr : errSqLocal (data.sum / data.length) data.length data
      = ((data.map (fun x => (x - data.sum / data.length)
          * (x - data.sum / data.length))).sum)
        / ((data.length : ℚ) * ((data.length : ℚ) - 1)) := by
    rw [errSqLocal_eq_map]
    exact map_div_sum
      (fun x => (x - data.sum / (data.length : ℚ)) * (x - data.sum / (data.length : ℚ)))
      ((data.length : ℚ) * ((data.length : ℚ) - 1)) data
  have h1 : mean_and_err data =
      some (data.sum / data.length,
        ((data.map (fun x => (x - data.sum / data.length)
            * (x - data.sum / data.length))).sum)
          / ((data.length : ℚ) * ((data.length : ℚ) - 1))) := by
    rw [mean_and_err, hmean, Option.map_some', herr]
  exact ⟨h1, by rw [h1, Option.map_some']⟩

/-- C4 witness (the spec's concrete case): `[1, 2, 3]` gives mean `2` and
radicand `1/3`, i.e. error `sqrt(1/3)`. -/
theorem mean_and_err_closed_form_witness : mean_and_err [1, 2, 3] = some (2, 1/3) := by
  have h := (mean_and_err_closed_form [1, 2, 3] (by norm_num)).1
  rw [h]
  norm_num

/-- C5 evaluation: on the length-1 sequence `[7]` the source divides by
`length * (length - 1) = 0` and silently returns the resulting value
instead of reporting an error (in C++ floating point the degenerate divide
yields a non-finite value; in this exact model the division-by-zero
convention returns `0`).  No error condition is raised. -/
theorem mean_and_err_length_one_silent : mean_and_err [7] = some (7, 0) := by
  have h := mean_eq_sum_div [7] (by decide)
  rw [mean_and_err, h, Option.map_some']
  norm_num [errSqLocal, List.sum_cons, List.sum_nil, List.length_cons, List.length_nil]

/-- C6 evaluation: a process holding an empty local sequence makes
`mean_mpi` undefined, because `mean` starts with the element access
`data[0]`, which is out of bounds on empty data (the `ENSURE` guard is
commented out); modelled as `none`. -/
theorem mean_mpi_empty_local_out_of_bounds : mean_mpi [[1, 2, 3], []] = none := by
  decide

/-- Rational complex scalars: the complex instantiation of the element
algebra used by `triqs::stat` (`re + im*i` over exact rationals). -/
structure CQ where
  re : ℚ
  im : ℚ
deriving DecidableEq

/-- Complex addition. -/
def CQ.addc (a b : CQ) : CQ := ⟨a.re + b.re, a.im + b.im⟩

/-- Complex subtraction. -/
def CQ.subc (a b : CQ) : CQ := ⟨a.re - b.re, a.im - b.im⟩

/-- Complex multiplication. -/
def CQ.mulc (a b : CQ) : CQ := ⟨a.re * b.re - a.im * b.im, a.re * b.im + a.im * b.re⟩

/-- Division of a complex value by a real scalar (the `/(n + 1)` of the
mean recurrence). -/
def CQ.divQ (a : CQ) (q : ℚ) : CQ := ⟨a.re / q, a.im / q⟩

/-- `triqs::arrays::conj_r`: complex conjugation. -/
def conj_r (a : CQ) : CQ := ⟨a.re, -a.im⟩

/-- Loop body of `mean` for complex data. -/
def meanBodyC (M : CQ) (nx : ℕ × CQ) : CQ :=
  M.addc ((nx.2.subc M).divQ ((nx.1 : ℚ) + 1))

/-- `triqs::stat::mean` instantiated at complex elements (the template is
generic in the element type); `data[0]` on empty data is out of bounds. -/
def meanC (data : List CQ) : Option CQ :=
  match data with
  | [] => none
  | _ :: _ => some ((data.enum).foldl meanBodyC ⟨0, 0⟩)

/-- The error loop of `mean_and_err` for complex data: `err_calc` has the
real-valued type derived from `real(mean_calc)` and accumulates
`conj_r(x - M) * (x - M) / (N * (N - 1))`, whose value is real because a
value times its conjugate has zero imaginary part. -/
def errSqLocalC (M : CQ) (N : ℕ) (d : List CQ) : ℚ :=
  d.foldl
    (fun e x => e + ((conj_r (x.subc M)).mulc (x.subc M)).re / ((N : ℚ) * ((N : ℚ) - 1))) 0

/-- `triqs::stat::mean_and_err` at complex elements; the second component
is the real radicand of the final `sqrt`. -/
def mean_and_errC (data : List CQ) : Option (CQ × ℚ) :=
  (meanC data).map (fun M => (M, errSqLocalC M data.length data))

/-- A complex value times its own conjugate has non-negative real part. -/
theorem conj_mul_re_nonneg (v : CQ) : 0 ≤ ((conj_r v).mulc v).re := by
  simp only [conj_r, CQ.mulc]
  nlinarith [sq_nonneg v.re, sq_nonneg v.im]

/-- C8: for complex data of length `≥ 2`, `mean_and_err` produces an
error that is real-valued (type `ℚ` here, versus `CQ` for the mean): every
accumulated term `conj_r(x - M) * (x - M)` is real and non-negative, the
radicand is non-negative, and the standard error `sqrt(radicand)` is
non-negative. -/
theorem mean_and_errC_error_real_nonneg (data : List CQ) (h : 2 ≤ data.length) :
    ∃ M S, mean_and_errC data = some (M, S) ∧
      (∀ x ∈ data, 0 ≤ ((conj_r (x.subc M)).mulc (x.subc M)).re) ∧
      0 ≤ S ∧ 0 ≤ Real.sqrt (S : ℝ) := by
  match data, h with
  | x :: t, h =>
    refine ⟨(((x :: t).enum).foldl meanBodyC ⟨0, 0⟩),
      errSqLocalC (((x :: t).enum).foldl meanBodyC ⟨0, 0⟩) (x :: t).length (x :: t),
      rfl, fun y _ => conj_mul_re_nonneg _, ?_, Real.sqrt_nonneg _⟩
    have hD : 0 ≤ (((x :: t).length : ℚ)) * ((((x :: t).length : ℚ)) - 1) := by
      have h2 : (2 : ℚ) ≤ (((x :: t).length : ℚ)) := by exact_mod_cast h
      nlinarith
    have hclosed := foldl_add_eq
      (fun y => ((conj_r (y.subc (((x :: t).enum).foldl meanBodyC ⟨0, 0⟩))).mulc
          (y.subc (((x :: t).enum).foldl meanBodyC ⟨0, 0⟩))).re
        / ((((x :: t).length : ℚ)) * ((((x :: t).length : ℚ)) - 1))) (x :: t) 0
    rw [errSqLocalC, hclosed, zero_add]
    apply List.sum_nonneg
    intro q hq
    obtain ⟨y, _, rfl⟩ := List.mem_map.mp hq
    exact div_nonneg (conj_mul_re_nonneg _) hD

/-- C8 witness (the spec's complex case): for `[1+1i, 1-1i, 3]` the mean is
`5/3 + 0i` and the error radicand is real and non-negative. -/
theorem mean_and_errC_error_real_nonneg_witness :
    (2 ≤ ([⟨1, 1⟩, ⟨1, -1⟩, ⟨3, 0⟩] : List CQ).length ∧
      ∃ M S, mean_and_errC [⟨1, 1⟩, ⟨1, -1⟩, ⟨3, 0⟩] = some (M, S) ∧
        (∀ x ∈ ([⟨1, 1⟩, ⟨1, -1⟩, ⟨3, 0⟩] : List CQ),
          0 ≤ ((conj_r (x.subc M)).mulc (x.subc M)).re) ∧
        0 ≤ S ∧ 0 ≤ Real.sqrt (S : ℝ)) ∧
    meanC [⟨1, 1⟩, ⟨1, -1⟩, ⟨3, 0⟩] = some ⟨5/3, 0⟩ := by
  refine ⟨⟨by decide, mean_and_errC_error_real_nonneg _ (by decide)⟩, ?_⟩
  have henum : ([⟨1, 1⟩, ⟨1, -1⟩, ⟨3, 0⟩] : List CQ).enum
      = [(0, ⟨1, 1⟩), (1, ⟨1, -1⟩), (2, ⟨3, 0⟩)] := rfl
  simp only [meanC, henum, List.foldl_cons, List.foldl_nil, meanBodyC,
    CQ.addc, CQ.subc, CQ.divQ]
  norm_num

/-- Machine state for the `mean` loop: the input container (held through a
`const` reference in the source) together with the `mean_calc`
accumulator, the only variable the loop body writes. -/
structure MeanState where
  data : List ℚ
  mean_calc : ℚ

/-- One iteration of the `mean` loop as a state transformer: it writes
`mean_calc` and leaves the container untouched. -/
def meanStepSt (s : MeanState) (nx : ℕ × ℚ) : MeanState :=
  { s with mean_calc := s.mean_calc + (nx.2 - s.mean_calc) / ((nx.1 : ℚ) + 1) }

/-- Running the whole `mean` loop over the enumerated input. -/
def meanRun (data : List ℚ) : MeanState :=
  (data.enum).foldl meanStepSt { data := data, mean_calc := 0 }

/-- Machine state for the error loop of `mean_and_err` /
`mean_and_err_mpi` on one process: the local container, the communicator
(the whole group's local sequences, shared read-only), and `err_calc`. -/
structure ErrState where
  data : List ℚ
  comm : List (List ℚ)
  err_calc : ℚ

/-- One iteration of the error loop: writes only `err_calc`. -/
def errStepSt (M D : ℚ) (s : ErrState) (x : ℚ) : ErrState :=
  { s with err_calc := s.err_calc + (x - M) * (x - M) / D }

/-- `all_reduce_in_place(err_calc, c)`: replaces `err_calc` by the sum of
every process's local accumulation, reading the communicator. -/
def allReduceErrSt (M : ℚ) (N : ℕ) (s : ErrState) : ErrState :=
  { s with err_calc := (s.comm.map (errSqLocal M N)).sum }

/-- The error phase of `mean_and_err_mpi` on the process holding `d` in
the group `world`: local loop, then in-place reduction. -/
def errRunMpi (world : List (List ℚ)) (d : List ℚ) (M : ℚ) (N : ℕ) : ErrState :=
  allReduceErrSt M N
    (d.foldl (errStepSt M ((N : ℚ) * ((N : ℚ) - 1)))
      { data := d, comm := world, err_calc := 0 })

/-- Folding the `mean` loop body never changes the container component. -/
theorem meanFold_data (l : List (ℕ × ℚ)) : ∀ s : MeanState,
    (l.foldl meanStepSt s).data = s.data := by
  induction l with
  | nil => intro s; rfl
  | cons p t ih => intro s; rw [List.foldl_cons, ih]; rfl

/-- The machine accumulator agrees with the functional embedding of the
loop. -/
theorem meanFold_calc (l : List (ℕ × ℚ)) : ∀ s : MeanState,
    (l.foldl meanStepSt s).mean_calc = l.foldl meanBody s.mean_calc := by
  induction l with
  | nil => intro s; rfl
  | cons p t ih =>
    intro s
    rw [List.foldl_cons, List.foldl_cons, ih]
    rfl

/-- Folding the error loop body never changes the container or the
communicator. -/
theorem errFold_frame (M D : ℚ) (l : List ℚ) : ∀ s : ErrState,
    (l.foldl (errStepSt M D) s).data = s.data ∧
    (l.foldl (errStepSt M D) s).comm = s.comm := by
  induction l with
  | nil => intro s; exact ⟨rfl, rfl⟩
  | cons x t ih =>
    intro s
    rw [List.foldl_cons]
    exact ih (errStepSt M D s x)

/-- C9: none of the accumulation loops mutates its inputs.  Running the
`mean` loop leaves the sequence unchanged (while its accumulator computes
exactly the functional `mean` loop), and running the distributed error
phase (local loop plus in-place reduction) leaves both the local sequence
and the communicator unchanged. -/
theorem accumulators_do_not_mutate_inputs (data d : List ℚ)
    (world : List (List ℚ)) (M : ℚ) (N : ℕ) :
    (meanRun data).data = data ∧
    (meanRun data).mean_calc = (data.enum).foldl meanBody 0 ∧
    (errRunMpi world d M N).data = d ∧
    (errRunMpi world d M N).comm = world := by
  refine ⟨meanFold_data (data.enum) _, meanFold_calc (data.enum) _, ?_, ?_⟩
  · show (allReduceErrSt M N _).data = d
    have h := errFold_frame M ((N : ℚ) * ((N : ℚ) - 1)) d
      { data := d, comm := world, err_calc := 0 }
    exact h.1
  · show (allReduceErrSt M N _).comm = world
    have h := errFold_frame M ((N : ℚ) * ((N : ℚ) - 1)) d
      { data := d, comm := world, err_calc := 0 }
    exact h.2
